import Mathlib

/-!
Verification of the todo-booklet PDF generator
(src/generator-pdf-todo-boox-double-details_16.py, as parametrized by the
patches applied in src/pdf_generator_ui.py: dynamic index columns,
general detail-pages-per-item loop, optional title page).

The generation run is embedded as the list of canvas events it emits, in
program order.  Geometry is exact rational arithmetic; the loop counters
are natural numbers.  Bookmark names, which in the source are the
f-strings "index", "page_..." and "detail_..._...", are embedded as a
structured type `Dest` (the decimal rendering of naturals is injective,
so the structured form is faithful).  Text drawing calls that carry a
computed label keep the label structurally; fixed strings are kept as
strings.  Font and color selection calls, which emit no marks on the
page, are not recorded.
-/

namespace PdfGen

/-- Layout parameters of one generation run: the fields of the generated
Config class that the page structure, link topology and dot grid depend on.
Lengths are rational (exact arithmetic for the float quantities of the
source), counts are naturals. -/
structure Params where
  pageWidth : ℚ
  pageHeight : ℚ
  marginLeft : ℚ
  marginRight : ℚ
  marginTop : ℚ
  marginBottom : ℚ
  dotSpacing : ℚ
  itemsPerCol : ℕ
  columns : ℕ
  pagesOfTodos : ℕ
  detailPagesPerTodo : ℕ
  titlePageEnabled : Bool
deriving DecidableEq

/-- Bookmark destinations: the structured form of the names "index",
"page_..." and "detail_..._..." used by bookmarkPage and linkRect. -/
inductive Dest where
  | index : Dest
  | page (n : ℕ) : Dest
  | detail (idx k : ℕ) : Dest
deriving DecidableEq

/-- Text labels drawn by drawString whose content the claims inspect. -/
inductive TextLabel where
  | pLabel (n : ℕ) : TextLabel
  | pageHeader (n : ℕ) : TextLabel
  | numLabel (n : ℕ) : TextLabel
  | detailHeader (pageNum pos k dpp : ℕ) : TextLabel
  | misc (s : String) : TextLabel
deriving DecidableEq

/-- Canvas events, one constructor per canvas call the run performs. -/
inductive Event where
  | beginForm (name : String) : Event
  | endForm : Event
  | doForm (name : String) : Event
  | bookmark (d : Dest) : Event
  | link (target : Dest) : Event
  | drawText (t : TextLabel) : Event
  | drawLine : Event
  | drawCircle (x y : ℚ) : Event
  | showPage : Event
  | save : Event
deriving DecidableEq

/-! Numbering arithmetic (lines 204-205 and 261-262 of the generator). -/

/-- Global item index from list page p, column c, row i:
p * ITEMS_PER_COL * COLUMNS + col * ITEMS_PER_COL + i + 1. -/
def globalIdx (ipc cols p c i : ℕ) : ℕ :=
  p * ipc * cols + c * ipc + i + 1

/-- Per-page todo label: ((global_idx - 1) mod (ITEMS_PER_COL * COLUMNS)) + 1. -/
def todoNum (ipc cols g : ℕ) : ℕ :=
  (g - 1) % (ipc * cols) + 1

/-- List page number of an item: ((idx - 1) div (ITEMS_PER_COL * COLUMNS)) + 1. -/
def pageNumOf (ipc cols idx : ℕ) : ℕ :=
  (idx - 1) / (ipc * cols) + 1

/-- Position of an item within its list page:
((idx - 1) mod (ITEMS_PER_COL * COLUMNS)) + 1. -/
def posInPage (ipc cols idx : ℕ) : ℕ :=
  (idx - 1) % (ipc * cols) + 1

/-! The dot grid while loops (lines 84-91 of the generator).  The source
steps a rational accumulator while it stays at most the stop value; the
fuel argument is a precomputed upper bound on the iteration count, making
the recursion structural.  `stepRange` supplies sufficient fuel. -/

/-- One stepping while loop: emit x, then continue from x + step, while
x is at most stop. -/
def stepPoints (stop step : ℚ) : ℕ → ℚ → List ℚ
  | 0, _ => []
  | fuel + 1, x => if x ≤ stop then x :: stepPoints stop step fuel (x + step) else []

/-- Fuel bound for the stepping loop. -/
def stepFuel (start stop step : ℚ) : ℕ := (⌊(stop - start) / step⌋ + 1).toNat

/-- The values visited by the while loop from start to stop by step. -/
def stepRange (start stop step : ℚ) : List ℚ :=
  stepPoints stop step (stepFuel start stop step) start

/-- All dot centers drawn into the form XObject: x outer loop over
[marginLeft, width - marginRight], y inner loop over
[marginBottom, height - marginTop], both stepped by dotSpacing. -/
def dotList (P : Params) : List (ℚ × ℚ) :=
  (stepRange P.marginLeft (P.pageWidth - P.marginRight) P.dotSpacing).flatMap
    fun x =>
      (stepRange P.marginBottom (P.pageHeight - P.marginTop) P.dotSpacing).map
        fun y => (x, y)

/-! Index page (lines 104-157, with the items-per-column patch of
pdf_generator_ui.py: cols = 2, items_per_col = ceiling of
PAGES_OF_TODOS / cols). -/

/-- Fixed number of index columns. -/
def indexCols : ℕ := 2

/-- Rows per index column: (PAGES_OF_TODOS + cols - 1) div cols. -/
def indexRows (L : ℕ) : ℕ := (L + indexCols - 1) / indexCols

/-- Entries of one index column: the inner loop runs i over the row count
and breaks as soon as page_num = col * items_per_col + i + 1 exceeds the
list page count (break on a monotone condition is takeWhile). -/
def indexColEntries (L col : ℕ) : List ℕ :=
  ((List.range (indexRows L)).takeWhile fun i =>
      decide (col * indexRows L + i + 1 ≤ L)).map
    fun i => col * indexRows L + i + 1

/-- All index entries in drawing order, outer loop over the two columns. -/
def indexEntries (L : ℕ) : List ℕ :=
  (List.range indexCols).flatMap (indexColEntries L)

/-- Events of one index entry: draw the P-label, draw the rule line,
register bookmark page_n on the index page, then add the clickable
region targeting page_n. -/
def entryEvents (n : ℕ) : List Event :=
  [.drawText (.pLabel n), .drawLine, .bookmark (.page n), .link (.page n)]

/-- Index page body: bookmark "index", the heading, then the entries. -/
def indexBody (L : ℕ) : List Event :=
  .bookmark .index :: .drawText (.misc "Index") ::
    (indexEntries L).flatMap entryEvents

/-! List pages (lines 173-247). -/

/-- Events of one todo row: the margin number label, the rule line, the
chevron icon, and the clickable region targeting the first detail page
of the global item of the row. -/
def listRow (P : Params) (p c i : ℕ) : List Event :=
  [.drawText (.numLabel (todoNum P.itemsPerCol P.columns
      (globalIdx P.itemsPerCol P.columns p c i))),
   .drawLine,
   .drawText (.misc ">"),
   .link (.detail (globalIdx P.itemsPerCol P.columns p c i) 1)]

/-- List page p body: bookmark page_(p+1), the header text, the header
clickable region targeting the index, then the rows column by column. -/
def listBody (P : Params) (p : ℕ) : List Event :=
  .bookmark (.page (p + 1)) :: .drawText (.pageHeader (p + 1)) :: .link .index ::
    (List.range P.columns).flatMap fun c =>
      (List.range P.itemsPerCol).flatMap (listRow P p c)

/-! Detail pages (lines 256-365, generalized to any DETAIL_PAGES_PER_TODO
by the new_detail_code patch; for the value 2 the unpatched hardcoded pair
of pages emits the same event sequence). -/

/-- Detail page k of item idx: place the dot-grid form, register the
bookmark, draw the back arrow, the header and the Index label, add the
back region targeting page_pageNum and the region targeting the index,
then the Prev link exactly when k is greater than 1 and the Next link
exactly when k is less than the chain length. -/
def detailBody (P : Params) (idx k : ℕ) : List Event :=
  [.doForm "dotPattern",
   .bookmark (.detail idx k),
   .drawText (.misc "<"),
   .drawText (.detailHeader (pageNumOf P.itemsPerCol P.columns idx)
      (posInPage P.itemsPerCol P.columns idx) k P.detailPagesPerTodo),
   .drawText (.misc "Index"),
   .link (.page (pageNumOf P.itemsPerCol P.columns idx)),
   .link .index]
  ++ (if 1 < k then [.drawText (.misc "< Prev"), .link (.detail idx (k - 1))] else [])
  ++ (if k < P.detailPagesPerTodo then
        [.drawText (.misc "Next >"), .link (.detail idx (k + 1))] else [])

/-- Total item count N = PAGES_OF_TODOS * ITEMS_PER_COL * COLUMNS. -/
def totalItems (P : Params) : ℕ := P.pagesOfTodos * P.itemsPerCol * P.columns

/-- Iteration order of the detail page loops: idx from 1 to N, and for
each idx, k from 1 to DETAIL_PAGES_PER_TODO. -/
def detailPairs (P : Params) : List (ℕ × ℕ) :=
  (List.range (totalItems P)).flatMap fun j =>
    (List.range P.detailPagesPerTodo).map fun t => (j + 1, t + 1)

/-- Title page body (generate_title_page): its drawing calls are
abstracted to one text draw; it registers no bookmark and adds no link. -/
def titleBody : List Event := [.drawText (.misc "title")]

/-- Form XObject definition block: beginForm, the dot circles, endForm. -/
def formEvents (P : Params) : List Event :=
  .beginForm "dotPattern" ::
    (dotList P).map (fun q => .drawCircle q.1 q.2) ++ [.endForm]

/-- All events of one run before the final save, in program order:
optional title page, the form definition, the index page, the list
pages, the detail pages. -/
def fullBody (P : Params) : List Event :=
  (if P.titlePageEnabled then titleBody ++ [.showPage] else [])
  ++ formEvents P
  ++ (indexBody P.pagesOfTodos ++ [.showPage])
  ++ ((List.range P.pagesOfTodos).flatMap fun p => listBody P p ++ [.showPage])
  ++ ((detailPairs P).flatMap fun ik => detailBody P ik.1 ik.2 ++ [.showPage])

/-- The complete event trace of create_pdf: the body then c.save(). -/
def fullTrace (P : Params) : List Event := fullBody P ++ [.save]

/-! Page decomposition of a trace: pages are the maximal showPage-free
segments, each terminated by one showPage call. -/

/-- Split a trace at its showPage events (the separators are dropped);
the final chunk holds the events after the last showPage. -/
def splitPages : List Event → List (List Event)
  | [] => [[]]
  | e :: rest =>
      if e = .showPage then [] :: splitPages rest
      else (splitPages rest).modifyHead fun c => e :: c

/-- The bookmark registered by an event, if any. -/
def bookmarkOf : Event → Option Dest
  | .bookmark d => some d
  | _ => none

/-- First bookmark registered within a chunk of events. -/
def firstMark (c : List Event) : Option Dest := (c.filterMap bookmarkOf).head?

/-- The pages a run emits, as chunks of events. -/
def pagesOf (P : Params) : List (List Event) :=
  (splitPages (fullTrace P)).dropLast

/-- Each emitted page, identified by the first bookmark it registers. -/
def pageMarks (P : Params) : List (Option Dest) := (pagesOf P).map firstMark

/-- The sequence of globalIndex values produced by the list page loops,
in loop order: p over the list pages, c over the columns, i over the rows. -/
def listEnumeration (L ipc cols : ℕ) : List ℕ :=
  (List.range L).flatMap fun p =>
    (List.range cols).flatMap fun c =>
      (List.range ipc).map fun i => globalIdx ipc cols p c i

/-- Sample configuration used to instantiate hypotheses of the proved
statements: itemsPerCol 2, columns 1, pagesOfTodos 2, detailPagesPerTodo 2. -/
def sampleParams : Params :=
  { pageWidth := 100, pageHeight := 50, marginLeft := 1, marginRight := 1,
    marginTop := 2, marginBottom := 1, dotSpacing := 7,
    itemsPerCol := 2, columns := 1, pagesOfTodos := 2, detailPagesPerTodo := 2,
    titlePageEnabled := false }

/-! Arithmetic of the global numbering. -/

lemma flatMap_range_block (cols ipc base : ℕ) :
    ((List.range cols).flatMap fun c => (List.range ipc).map fun i => base + c * ipc + i + 1)
      = (List.range (cols * ipc)).map fun j => base + j + 1 := by
  induction cols with
  | zero => simp
  | succ n ih =>
      rw [List.range_succ, List.flatMap_append, ih]
      have hadd : (n + 1) * ipc = n * ipc + ipc := by ring
      rw [hadd, List.range_add, List.map_append]
      congr 1
      simp only [List.flatMap_cons, List.flatMap_nil, List.append_nil, List.map_map]
      apply List.map_congr_left
      intro x _
      simp only [Function.comp_apply]
      omega

lemma listEnumeration_eq (L ipc cols : ℕ) :
    listEnumeration L ipc cols = (List.range (L * ipc * cols)).map fun n => n + 1 := by
  induction L with
  | zero => simp [listEnumeration]
  | succ n ih =>
      have hstep :
          listEnumeration (n + 1) ipc cols
            = listEnumeration n ipc cols
              ++ ((List.range cols).flatMap fun c =>
                    (List.range ipc).map fun i => n * ipc * cols + c * ipc + i + 1) := by
        simp only [listEnumeration, List.range_succ, List.flatMap_append,
          List.flatMap_cons, List.flatMap_nil, List.append_nil]
        rfl
      rw [hstep, ih, flatMap_range_block]
      have hadd : (n + 1) * ipc * cols = n * ipc * cols + cols * ipc := by ring
      rw [hadd, List.range_add, List.map_append]
      congr 1
      rw [List.map_map]
      apply List.map_congr_left
      intro x _
      simp only [Function.comp_apply]

lemma globalIdx_row_lt (ipc cols c i : ℕ) (hc : c < cols) (hi : i < ipc) :
    c * ipc + i < ipc * cols := by
  have h1 : (c + 1) * ipc ≤ cols * ipc := Nat.mul_le_mul_right ipc hc
  have h2 : (c + 1) * ipc = c * ipc + ipc := by ring
  have h3 : cols * ipc = ipc * cols := Nat.mul_comm cols ipc
  omega

lemma pageNumOf_globalIdx (ipc cols p c i : ℕ) (hc : c < cols) (hi : i < ipc) :
    pageNumOf ipc cols (globalIdx ipc cols p c i) = p + 1 := by
  have hr := globalIdx_row_lt ipc cols c i hc hi
  have hsub : globalIdx ipc cols p c i - 1 = c * ipc + i + (ipc * cols) * p := by
    simp only [globalIdx]
    have : p * ipc * cols = (ipc * cols) * p := by ring
    omega
  have hpos : 0 < ipc * cols := by omega
  simp only [pageNumOf, hsub]
  rw [Nat.add_mul_div_left _ _ hpos, Nat.div_eq_of_lt hr]
  omega

lemma posInPage_globalIdx (ipc cols p c i : ℕ) (hc : c < cols) (hi : i < ipc) :
    posInPage ipc cols (globalIdx ipc cols p c i) = c * ipc + i + 1 := by
  have hr := globalIdx_row_lt ipc cols c i hc hi
  have hsub : globalIdx ipc cols p c i - 1 = c * ipc + i + (ipc * cols) * p := by
    simp only [globalIdx]
    have : p * ipc * cols = (ipc * cols) * p := by ring
    omega
  simp only [posInPage, hsub]
  rw [Nat.add_mul_mod_self_left, Nat.mod_eq_of_lt hr]

lemma pageNumOf_eq_ceil (ipc cols idx : ℕ) (h1 : 1 ≤ idx) (hm : 1 ≤ ipc * cols) :
    pageNumOf ipc cols idx = (idx + ipc * cols - 1) / (ipc * cols) := by
  have h2 : idx + ipc * cols - 1 = (idx - 1) + ipc * cols := by omega
  rw [pageNumOf, h2, Nat.add_div_right _ (by omega)]

/-! The stepping while loop visits exactly the arithmetic progression
points up to the stop value. -/

lemma mem_stepPoints (stop step : ℚ) (hstep : 0 < step) :
    ∀ (fuel : ℕ) (x y : ℚ), (⌊(stop - x) / step⌋ + 1).toNat ≤ fuel →
      (y ∈ stepPoints stop step fuel x ↔ ∃ i : ℕ, y = x + i * step ∧ y ≤ stop) := by
  intro fuel
  induction fuel with
  | zero =>
      intro x y hf
      have hneg : ⌊(stop - x) / step⌋ + 1 ≤ 0 := by omega
      have hlt : (stop - x) / step < 0 := by
        by_contra hge
        have := Int.floor_nonneg.mpr (le_of_not_lt hge)
        omega
      have hxs : stop < x := by
        by_contra hle
        have : (0 : ℚ) ≤ (stop - x) / step :=
          div_nonneg (by linarith [le_of_not_lt hle]) hstep.le
        linarith
      simp only [stepPoints, List.not_mem_nil, false_iff]
      rintro ⟨i, rfl, hle⟩
      have : (0 : ℚ) ≤ (i : ℚ) * step := by positivity
      linarith
  | succ fuel ih =>
      intro x y hf
      by_cases hx : x ≤ stop
      · have hfloor0 : 0 ≤ ⌊(stop - x) / step⌋ :=
          Int.floor_nonneg.mpr (div_nonneg (by linarith) hstep.le)
        have hdiv : (stop - (x + step)) / step = (stop - x) / step - 1 := by
          field_simp
          ring
        have hfl : ⌊(stop - (x + step)) / step⌋ = ⌊(stop - x) / step⌋ - 1 := by
          rw [hdiv]
          exact_mod_cast Int.floor_sub_int ((stop - x) / step) 1
        have hf2 : (⌊(stop - (x + step)) / step⌋ + 1).toNat ≤ fuel := by
          rw [hfl]; omega
        simp only [stepPoints, if_pos hx, List.mem_cons, ih (x + step) y hf2]
        constructor
        · rintro (rfl | ⟨i, rfl, hle⟩)
          · exact ⟨0, by push_cast; ring, hx⟩
          · refine ⟨i + 1, ?_, hle⟩
            push_cast
            ring
        · rintro ⟨i, rfl, hle⟩
          cases i with
          | zero => left; push_cast; ring
          | succ j =>
              right
              refine ⟨j, ?_, hle⟩
              push_cast
              ring
      · simp only [stepPoints, if_neg hx, List.not_mem_nil, false_iff]
        rintro ⟨i, rfl, hle⟩
        have : (0 : ℚ) ≤ (i : ℚ) * step := by positivity
        have : stop < x := lt_of_not_le hx
        linarith

lemma mem_stepRange (start stop step : ℚ) (hstep : 0 < step) (y : ℚ) :
    y ∈ stepRange start stop step ↔ ∃ i : ℕ, y = start + i * step ∧ y ≤ stop :=
  mem_stepPoints stop step hstep _ start y (le_refl _)

lemma stepRange_eq_nil (start stop step : ℚ) (h : stop < start) :
    stepRange start stop step = [] := by
  unfold stepRange
  cases stepFuel start stop step with
  | zero => rfl
  | succ n => simp [stepPoints, not_le.mpr h]

/-! Decomposition of the trace into pages. -/

lemma splitPages_append_noshow (a b : List Event)
    (h : Event.showPage ∉ a) :
    splitPages (a ++ b) = (splitPages b).modifyHead fun c => a ++ c := by
  induction a with
  | nil =>
      cases hsb : splitPages b with
      | nil => simp [List.modifyHead, hsb]
      | cons c cs => simp [List.modifyHead, hsb]
  | cons e a ih =>
      have he : e ≠ Event.showPage := fun hcontra => h (hcontra ▸ List.mem_cons_self e a)
      have ha : Event.showPage ∉ a := fun hcontra => h (List.mem_cons_of_mem e hcontra)
      rw [List.cons_append]
      simp only [splitPages, if_neg he, List.append_eq]
      rw [ih ha, List.modifyHead_modifyHead]
      rfl

lemma splitPages_page (a rest : List Event) (h : Event.showPage ∉ a) :
    splitPages (a ++ Event.showPage :: rest) = a :: splitPages rest := by
  rw [splitPages_append_noshow a _ h]
  have hsp : splitPages (Event.showPage :: rest) = [] :: splitPages rest := by
    simp [splitPages]
  rw [hsp]
  simp [List.modifyHead]

lemma splitPages_two (a b rest : List Event) (ha : Event.showPage ∉ a)
    (hb : Event.showPage ∉ b) :
    splitPages (a ++ (b ++ Event.showPage :: rest)) = (a ++ b) :: splitPages rest := by
  rw [← List.append_assoc]
  exact splitPages_page (a ++ b) rest (by
    intro hmem
    rcases List.mem_append.mp hmem with h | h
    · exact ha h
    · exact hb h)

lemma splitPages_flat {α : Type} (f : α → List Event) (l : List α) (rest : List Event)
    (h : ∀ x ∈ l, Event.showPage ∉ f x) :
    splitPages ((l.flatMap fun x => f x ++ [Event.showPage]) ++ rest)
      = l.map f ++ splitPages rest := by
  induction l with
  | nil => simp
  | cons x xs ih =>
      have hx : Event.showPage ∉ f x := h x (List.mem_cons_self x xs)
      have hxs : ∀ y ∈ xs, Event.showPage ∉ f y := fun y hy => h y (List.mem_cons_of_mem x hy)
      simp only [List.flatMap_cons, List.append_assoc, List.singleton_append,
        List.cons_append]
      rw [splitPages_page (f x) _ hx]
      simp only [List.nil_append]
      rw [ih hxs]
      simp

lemma mem_dotList (P : Params) (hstep : 0 < P.dotSpacing) (x y : ℚ) :
    (x, y) ∈ dotList P ↔
      (∃ i : ℕ, x = P.marginLeft + i * P.dotSpacing ∧ x ≤ P.pageWidth - P.marginRight) ∧
      (∃ j : ℕ, y = P.marginBottom + j * P.dotSpacing ∧ y ≤ P.pageHeight - P.marginTop) := by
  simp only [dotList, List.mem_flatMap, List.mem_map, Prod.mk.injEq]
  constructor
  · rintro ⟨a, ha, b, hb, rfl, rfl⟩
    exact ⟨(mem_stepRange _ _ _ hstep a).mp ha, (mem_stepRange _ _ _ hstep b).mp hb⟩
  · rintro ⟨hx, hy⟩
    exact ⟨x, (mem_stepRange _ _ _ hstep x).mpr hx,
      y, (mem_stepRange _ _ _ hstep y).mpr hy, rfl, rfl⟩

/-! None of the page bodies calls showPage internally. -/

lemma showPage_notin_titleBody : Event.showPage ∉ titleBody := by
  simp [titleBody]

lemma showPage_notin_formEvents (P : Params) : Event.showPage ∉ formEvents P := by
  simp [formEvents]

lemma showPage_notin_indexBody (L : ℕ) : Event.showPage ∉ indexBody L := by
  simp [indexBody, entryEvents, List.mem_flatMap]

lemma showPage_notin_listBody (P : Params) (p : ℕ) : Event.showPage ∉ listBody P p := by
  simp [listBody, listRow, List.mem_flatMap]

lemma showPage_notin_detailBody (P : Params) (idx k : ℕ) :
    Event.showPage ∉ detailBody P idx k := by
  simp only [detailBody, List.mem_append, List.mem_cons, List.not_mem_nil]
  intro hmem
  rcases hmem with h | h <;> split at h <;> simp_all

/-- The pages of a full run, in emission order: the optional title page,
the index page (preceded in the stream by the form definition, which is
not page content), the list pages, the detail pages. -/
lemma dropLast_shape1 {α : Type _} (b : α) (l m : List α) (c : α) :
    (b :: (l ++ (m ++ [c]))).dropLast = b :: (l ++ m) := by
  have h : b :: (l ++ (m ++ [c])) = (b :: (l ++ m)) ++ [c] := by simp
  rw [h, List.dropLast_concat]

lemma dropLast_shape2 {α : Type _} (a b : α) (l m : List α) (c : α) :
    (a :: (b :: (l ++ (m ++ [c])))).dropLast = a :: (b :: (l ++ m)) := by
  have h : a :: (b :: (l ++ (m ++ [c]))) = (a :: (b :: (l ++ m))) ++ [c] := by simp
  rw [h, List.dropLast_concat]

lemma pagesOf_eq (P : Params) :
    pagesOf P
      = (if P.titlePageEnabled then [titleBody] else [])
        ++ (formEvents P ++ indexBody P.pagesOfTodos)
          :: ((List.range P.pagesOfTodos).map (listBody P)
            ++ (detailPairs P).map fun ik => detailBody P ik.1 ik.2) := by
  have hform := showPage_notin_formEvents P
  have hindex := showPage_notin_indexBody P.pagesOfTodos
  have hsplit :
      splitPages ((formEvents P
          ++ (indexBody P.pagesOfTodos ++ Event.showPage
            :: (((List.range P.pagesOfTodos).flatMap fun p => listBody P p ++ [Event.showPage])
              ++ (((detailPairs P).flatMap fun ik => detailBody P ik.1 ik.2 ++ [Event.showPage])
                ++ [Event.save])))))
        = (formEvents P ++ indexBody P.pagesOfTodos)
          :: ((List.range P.pagesOfTodos).map (listBody P)
            ++ ((detailPairs P).map (fun ik => detailBody P ik.1 ik.2)
              ++ [[Event.save]])) := by
    rw [splitPages_two _ _ _ hform hindex]
    rw [splitPages_flat (listBody P) _ _ (fun p _ => showPage_notin_listBody P p)]
    rw [splitPages_flat (fun ik : ℕ × ℕ => detailBody P ik.1 ik.2) _ _
      (fun ik _ => showPage_notin_detailBody P ik.1 ik.2)]
    rfl
  unfold pagesOf fullTrace fullBody
  by_cases ht : P.titlePageEnabled = true
  · rw [if_pos ht, if_pos ht]
    simp only [List.append_assoc, List.cons_append, List.singleton_append,
      List.nil_append]
    rw [splitPages_page titleBody _ showPage_notin_titleBody]
    rw [hsplit, dropLast_shape2]
  · rw [if_neg ht, if_neg ht]
    simp only [List.append_assoc, List.cons_append, List.singleton_append,
      List.nil_append]
    rw [hsplit, dropLast_shape1]

/-! Identification of each page by its first registered bookmark. -/

lemma filterMap_none_eq_nil {α β : Type _} (l : List α) :
    l.filterMap (fun _ => (none : Option β)) = [] := by
  induction l with
  | nil => rfl
  | cons a l ih => simp [List.filterMap_cons, ih]

lemma filterMap_bookmarkOf_formEvents (P : Params) :
    (formEvents P).filterMap bookmarkOf = [] := by
  simp [formEvents, List.filterMap_cons, List.filterMap_append, List.filterMap_map,
    bookmarkOf, Function.comp_def, filterMap_none_eq_nil]

lemma firstMark_formIndex (P : Params) :
    firstMark (formEvents P ++ indexBody P.pagesOfTodos) = some Dest.index := by
  unfold firstMark
  rw [List.filterMap_append, filterMap_bookmarkOf_formEvents]
  rfl

lemma firstMark_titleBody : firstMark titleBody = none := rfl

lemma firstMark_listBody (P : Params) (p : ℕ) :
    firstMark (listBody P p) = some (Dest.page (p + 1)) := rfl

lemma firstMark_detailBody (P : Params) (idx k : ℕ) :
    firstMark (detailBody P idx k) = some (Dest.detail idx k) := rfl

/-- The page identity sequence of a full run. -/
lemma pageMarks_eq (P : Params) :
    pageMarks P
      = (if P.titlePageEnabled then [(none : Option Dest)] else [])
        ++ some Dest.index
          :: ((List.range P.pagesOfTodos).map (fun p => some (Dest.page (p + 1)))
            ++ (detailPairs P).map fun ik => some (Dest.detail ik.1 ik.2)) := by
  unfold pageMarks
  rw [pagesOf_eq]
  by_cases ht : P.titlePageEnabled <;>
    simp [ht, firstMark_titleBody, firstMark_formIndex, firstMark_listBody,
      firstMark_detailBody, List.map_map, Function.comp_def]

lemma detailPairs_length (P : Params) :
    (detailPairs P).length = totalItems P * P.detailPagesPerTodo := by
  rw [detailPairs, List.length_flatMap]
  have h1 : List.map (List.length ∘ fun j => (List.range P.detailPagesPerTodo).map
        fun t => (j + 1, t + 1)) (List.range (totalItems P))
      = List.replicate (totalItems P) P.detailPagesPerTodo := by
    rw [List.eq_replicate_iff]
    constructor
    · simp
    · intro b hb
      rcases List.mem_map.mp hb with ⟨j, _, hj⟩
      simp only [Function.comp_apply, List.length_map, List.length_range] at hj
      omega
  rw [h1, List.sum_replicate, smul_eq_mul]

/-- C1: for every configuration, a generation run emits exactly
1 [+1 when the title page is enabled] + numberOfListPages +
numberOfListPages * itemsPerColumn * columns * detailPagesPerItem pages,
in the fixed order optional title page, index page, list pages in order,
then the detail pages item by item and chain position by chain position. -/
lemma pageMarks_length (P : Params) :
    (pageMarks P).length
      = (if P.titlePageEnabled then 1 else 0) + 1 + P.pagesOfTodos
        + P.pagesOfTodos * P.itemsPerCol * P.columns * P.detailPagesPerTodo := by
  rw [pageMarks_eq P]
  by_cases ht : P.titlePageEnabled = true <;>
    · simp [ht, detailPairs_length, totalItems]
      omega

theorem claim_C1 (P : Params) :
    pageMarks P
      = (if P.titlePageEnabled then [(none : Option Dest)] else [])
        ++ some Dest.index
          :: ((List.range P.pagesOfTodos).map (fun p => some (Dest.page (p + 1)))
            ++ (detailPairs P).map fun ik => some (Dest.detail ik.1 ik.2))
    ∧ (pageMarks P).length
      = (if P.titlePageEnabled then 1 else 0) + 1 + P.pagesOfTodos
        + P.pagesOfTodos * P.itemsPerCol * P.columns * P.detailPagesPerTodo :=
  ⟨pageMarks_eq P, pageMarks_length P⟩

/-- C4: the globalIndex values produced by the list page loops, in loop
order, are exactly 1, 2, ..., N with N = numberOfListPages * itemsPerColumn
* columns: the triple-to-index map is a bijection onto [1, N], dense and
duplicate free; in particular for numberOfListPages 3, itemsPerColumn 20,
columns 2 the values cover exactly [1, 120]. -/
theorem claim_C4 :
    (∀ L ipc cols, listEnumeration L ipc cols
        = (List.range (L * ipc * cols)).map fun n => n + 1)
    ∧ (∀ L ipc cols n, n ∈ listEnumeration L ipc cols ↔ 1 ≤ n ∧ n ≤ L * ipc * cols)
    ∧ (∀ L ipc cols, (listEnumeration L ipc cols).Nodup)
    ∧ listEnumeration 3 20 2 = (List.range 120).map fun n => n + 1 := by
  refine ⟨listEnumeration_eq, ?_, ?_, ?_⟩
  · intro L ipc cols n
    rw [listEnumeration_eq]
    simp only [List.mem_map, List.mem_range]
    constructor
    · rintro ⟨a, ha, rfl⟩
      omega
    · rintro ⟨h1, h2⟩
      exact ⟨n - 1, by omega, by omega⟩
  · intro L ipc cols
    rw [listEnumeration_eq]
    exact List.Nodup.map (fun a b h => by omega) (List.nodup_range _)
  · exact listEnumeration_eq 3 20 2

/-- C6: the dot centers of the tile pattern are exactly the grid points
marginLeft + i * dotSpacing, marginBottom + j * dotSpacing with the x
coordinate at most width - marginRight and the y coordinate at most
height - marginTop, boundary included, with no other dots and no
randomness (the enumeration is a deterministic function of the
parameters). -/
theorem claim_C6 (P : Params) (hstep : 0 < P.dotSpacing) (x y : ℚ) :
    (x, y) ∈ dotList P
      ↔ ∃ i j : ℕ, x = P.marginLeft + i * P.dotSpacing
          ∧ y = P.marginBottom + j * P.dotSpacing
          ∧ x ≤ P.pageWidth - P.marginRight
          ∧ y ≤ P.pageHeight - P.marginTop := by
  rw [mem_dotList P hstep]
  constructor
  · rintro ⟨⟨i, hx1, hx2⟩, ⟨j, hy1, hy2⟩⟩
    exact ⟨i, j, hx1, hy1, hx2, hy2⟩
  · rintro ⟨i, j, hx1, hy1, hx2, hy2⟩
    exact ⟨⟨i, hx1, hx2⟩, ⟨j, hy1, hy2⟩⟩

/-- Witness for C6: at the sample configuration the corner dot at the
margins belongs to the tile pattern. -/
theorem claim_C6_witness : ((1 : ℚ), (1 : ℚ)) ∈ dotList sampleParams :=
  (claim_C6 sampleParams (by norm_num [sampleParams]) 1 1).mpr
    ⟨0, 0, by norm_num [sampleParams], by norm_num [sampleParams],
      by norm_num [sampleParams], by norm_num [sampleParams]⟩

/-! Index page: the entries enumerate the list pages exactly once each. -/

lemma takeWhile_range_lt :
    ∀ n k, ((List.range n).takeWhile fun i => decide (i < k)) = List.range (min n k) := by
  intro n
  induction n with
  | zero => intro k; simp
  | succ n ih =>
      intro k
      cases k with
      | zero =>
          rw [List.range_succ_eq_map]
          simp [List.takeWhile_cons]
      | succ k =>
          rw [List.range_succ_eq_map, List.takeWhile_cons]
          have h0 : (decide (0 < k + 1)) = true := by simp
          rw [h0]
          simp only [if_true]
          rw [List.takeWhile_map]
          have hp : ((fun i => decide (i < k + 1)) ∘ Nat.succ)
              = fun i => decide (i < k) := by
            funext i
            simp only [Function.comp_apply]
            rw [decide_eq_decide]
            omega
          rw [hp, ih k, ← List.range_succ_eq_map, Nat.succ_min_succ]

lemma indexColEntries_eq (L col : ℕ) :
    indexColEntries L col
      = (List.range (min (indexRows L) (L - col * indexRows L))).map
          fun i => col * indexRows L + i + 1 := by
  unfold indexColEntries
  have hp : (fun i => decide (col * indexRows L + i + 1 ≤ L))
      = fun i => decide (i < L - col * indexRows L) := by
    funext i
    rw [decide_eq_decide]
    omega
  rw [hp, takeWhile_range_lt]

lemma indexEntries_eq (L : ℕ) (hL : 1 ≤ L) :
    indexEntries L = (List.range L).map fun n => n + 1 := by
  have hrows : indexRows L = (L + 1) / 2 := by
    unfold indexRows indexCols
    omega
  have hm1 : min (indexRows L) (L - 0 * indexRows L) = indexRows L := by omega
  have hm2 : min (indexRows L) (L - 1 * indexRows L) = L - indexRows L := by omega
  have h2 : List.range indexCols = [0, 1] := rfl
  unfold indexEntries
  rw [h2]
  simp only [List.flatMap_cons, List.flatMap_nil, List.append_nil]
  rw [indexColEntries_eq L 0, indexColEntries_eq L 1, hm1, hm2]
  have hsum : L = indexRows L + (L - indexRows L) := by omega
  conv_rhs => rw [hsum]
  rw [List.range_add, List.map_append]
  congr 1
  · apply List.map_congr_left
    intro a _
    omega
  · rw [List.map_map]
    apply List.map_congr_left
    intro a _
    simp only [Function.comp_apply]
    omega

lemma countP_entry_link (m n : ℕ) :
    ((entryEvents m).countP fun e => decide (e = Event.link (Dest.page n)))
      = if m = n then 1 else 0 := by
  by_cases h : m = n <;>
    simp [entryEvents, List.countP_cons, List.countP_nil, h]

lemma countP_entry_label (m n : ℕ) :
    ((entryEvents m).countP fun e => decide (e = Event.drawText (TextLabel.pLabel n)))
      = if m = n then 1 else 0 := by
  by_cases h : m = n <;>
    simp [entryEvents, List.countP_cons, List.countP_nil, h]

lemma sum_indicator_range (L n : ℕ) :
    (((List.range L).map fun a => if a + 1 = n then 1 else 0).sum : ℕ)
      = if 1 ≤ n ∧ n ≤ L then 1 else 0 := by
  induction L with
  | zero =>
      simp only [List.range_zero, List.map_nil, List.sum_nil]
      split_ifs with h
      · omega
      · rfl
  | succ L ih =>
      rw [List.range_succ, List.map_append, List.sum_append, ih]
      simp only [List.map_cons, List.map_nil, List.sum_cons, List.sum_nil]
      split_ifs <;> omega

lemma countP_indexBody_link (L n : ℕ) (hL : 1 ≤ L) :
    ((indexBody L).countP fun e => decide (e = Event.link (Dest.page n)))
      = if 1 ≤ n ∧ n ≤ L then 1 else 0 := by
  unfold indexBody
  rw [indexEntries_eq L hL]
  simp only [List.countP_cons]
  rw [List.countP_flatMap]
  simp only [Function.comp_def, countP_entry_link]
  rw [List.map_map]
  have h1 : (List.map ((fun m => if m = n then 1 else 0) ∘ fun a => a + 1) (List.range L))
      = (List.range L).map fun a => if a + 1 = n then 1 else 0 := by
    apply List.map_congr_left
    intro a _
    rfl
  rw [h1, sum_indicator_range]
  simp

lemma countP_indexBody_label (L n : ℕ) (hL : 1 ≤ L) :
    ((indexBody L).countP fun e => decide (e = Event.drawText (TextLabel.pLabel n)))
      = if 1 ≤ n ∧ n ≤ L then 1 else 0 := by
  unfold indexBody
  rw [indexEntries_eq L hL]
  simp only [List.countP_cons]
  rw [List.countP_flatMap]
  simp only [Function.comp_def, countP_entry_label]
  rw [List.map_map]
  have h1 : (List.map ((fun m => if m = n then 1 else 0) ∘ fun a => a + 1) (List.range L))
      = (List.range L).map fun a => if a + 1 = n then 1 else 0 := by
    apply List.map_congr_left
    intro a _
    rfl
  rw [h1, sum_indicator_range]
  simp

/-- C3: the index page lays its entries out in a fixed 2-column table with
ceiling of numberOfListPages / 2 rows per column, and its entry sequence
is exactly P1, ..., P numberOfListPages, each entry drawing its label and
registering bookmark page_n immediately before its clickable region
targeting page_n: every list page occurs exactly once, none is missing
and none repeats. -/
theorem claim_C3 (L : ℕ) (hL : 1 ≤ L) :
    indexCols = 2
    ∧ indexRows L = (L + 1) / 2
    ∧ indexBody L
        = Event.bookmark Dest.index :: Event.drawText (TextLabel.misc "Index")
          :: ((List.range L).map fun n => n + 1).flatMap entryEvents
    ∧ (∀ n, ((indexBody L).countP fun e => decide (e = Event.link (Dest.page n)))
        = if 1 ≤ n ∧ n ≤ L then 1 else 0)
    ∧ (∀ n, ((indexBody L).countP fun e => decide (e = Event.drawText (TextLabel.pLabel n)))
        = if 1 ≤ n ∧ n ≤ L then 1 else 0) := by
  refine ⟨rfl, ?_, ?_, fun n => countP_indexBody_link L n hL,
    fun n => countP_indexBody_label L n hL⟩
  · unfold indexRows indexCols
    omega
  · unfold indexBody
    rw [indexEntries_eq L hL]

/-- Witness for C3 at two list pages: the index holds exactly one link
targeting page_1. -/
theorem claim_C3_witness :
    ((indexBody 2).countP fun e => decide (e = Event.link (Dest.page 1)))
      = if 1 ≤ 1 ∧ 1 ≤ 2 then 1 else 0 :=
  (claim_C3 2 (by norm_num)).2.2.2.1 1

/-! Detail page chains. -/

/-- The detail-page link targets added on a chunk of events, as item and
chain-position pairs. -/
def detailLinksOn (c : List Event) : List (ℕ × ℕ) :=
  c.filterMap fun e =>
    match e with
    | Event.link (Dest.detail i k) => some (i, k)
    | _ => none

lemma detailLinks_detailBody (P : Params) (idx k : ℕ) :
    detailLinksOn (detailBody P idx k)
      = (if 1 < k then [(idx, k - 1)] else [])
        ++ (if k < P.detailPagesPerTodo then [(idx, k + 1)] else []) := by
  unfold detailLinksOn detailBody
  split_ifs <;>
    simp_all [List.filterMap_append, List.filterMap_cons]

lemma sum_indicator_range_w (L n w : ℕ) :
    (((List.range L).map fun a => if a + 1 = n then w else 0).sum : ℕ)
      = if 1 ≤ n ∧ n ≤ L then w else 0 := by
  induction L with
  | zero =>
      simp only [List.range_zero, List.map_nil, List.sum_nil]
      split_ifs with h
      · omega
      · rfl
  | succ L ih =>
      rw [List.range_succ, List.map_append, List.sum_append, ih]
      simp only [List.map_cons, List.map_nil, List.sum_cons, List.sum_nil]
      split_ifs <;> omega

lemma detailPairs_countP_fst (P : Params) (idx : ℕ)
    (h1 : 1 ≤ idx) (h2 : idx ≤ totalItems P) :
    ((detailPairs P).countP fun ik => decide (ik.1 = idx)) = P.detailPagesPerTodo := by
  unfold detailPairs
  rw [List.countP_flatMap]
  have hinner : ∀ j : ℕ,
      (((List.range P.detailPagesPerTodo).map fun t => (j + 1, t + 1)).countP
          fun ik => decide (ik.1 = idx))
        = if j + 1 = idx then P.detailPagesPerTodo else 0 := by
    intro j
    rw [List.countP_map]
    by_cases h : j + 1 = idx <;>
      simp [Function.comp_def, h]
  have hmap :
      (List.map ((List.countP fun ik => decide (ik.1 = idx)) ∘ fun j =>
          (List.range P.detailPagesPerTodo).map fun t => (j + 1, t + 1))
        (List.range (totalItems P)))
      = (List.range (totalItems P)).map
          fun j => if j + 1 = idx then P.detailPagesPerTodo else 0 := by
    apply List.map_congr_left
    intro j _
    exact hinner j
  rw [hmap, sum_indicator_range_w]
  simp [h1, h2]

/-- Page-mark predicate: the page is a detail page of the given item. -/
def isDetailOf (idx : ℕ) : Option Dest → Bool
  | some (Dest.detail i _) => i = idx
  | _ => false

lemma pageMarks_count_detail (P : Params) (idx : ℕ)
    (h1 : 1 ≤ idx) (h2 : idx ≤ totalItems P) :
    ((pageMarks P).countP (isDetailOf idx)) = P.detailPagesPerTodo := by
  rw [pageMarks_eq]
  rw [List.countP_append, List.countP_cons, List.countP_append]
  have htitle : ((if P.titlePageEnabled then [(none : Option Dest)] else []).countP
      (isDetailOf idx)) = 0 := by
    split_ifs <;> simp [isDetailOf]
  have hlists : (((List.range P.pagesOfTodos).map fun p =>
      some (Dest.page (p + 1))).countP (isDetailOf idx)) = 0 := by
    rw [List.countP_map]
    simp [Function.comp_def, isDetailOf]
  have hdetails : (((detailPairs P).map fun ik =>
      some (Dest.detail ik.1 ik.2)).countP (isDetailOf idx)) = P.detailPagesPerTodo := by
    rw [List.countP_map]
    have : ((isDetailOf idx) ∘ fun ik : ℕ × ℕ => some (Dest.detail ik.1 ik.2))
        = fun ik => decide (ik.1 = idx) := by
      funext ik
      rfl
    rw [this]
    exact detailPairs_countP_fst P idx h1 h2
  rw [htitle, hlists, hdetails]
  simp [isDetailOf]

/-- C2: for every item idx in [1, N] the run emits exactly
detailPagesPerItem detail pages for idx; detail page k carries a Prev
link exactly when k is greater than 1 (targeting detail_idx_km1) and a
Next link exactly when k is less than detailPagesPerItem (targeting
detail_idx_kp1), with no wraparound, and a chain length of 1 yields a
single page with neither link. -/
theorem claim_C2 (P : Params) (idx k : ℕ)
    (hidx1 : 1 ≤ idx) (hidx2 : idx ≤ totalItems P)
    (hk1 : 1 ≤ k) (hk2 : k ≤ P.detailPagesPerTodo) :
    ((pageMarks P).countP (isDetailOf idx)) = P.detailPagesPerTodo
    ∧ detailLinksOn (detailBody P idx k)
        = (if 1 < k then [(idx, k - 1)] else [])
          ++ (if k < P.detailPagesPerTodo then [(idx, k + 1)] else [])
    ∧ (P.detailPagesPerTodo = 1 → detailLinksOn (detailBody P idx 1) = []) := by
  refine ⟨pageMarks_count_detail P idx hidx1 hidx2, detailLinks_detailBody P idx k, ?_⟩
  intro hone
  rw [detailLinks_detailBody]
  simp [hone]

/-- Witness for C2 at the sample configuration, item 3, chain position 2:
the run emits two detail pages for item 3. -/
theorem claim_C2_witness :
    ((pageMarks sampleParams).countP (isDetailOf 3)) = sampleParams.detailPagesPerTodo :=
  (claim_C2 sampleParams 3 2 (by norm_num) (by norm_num [totalItems, sampleParams])
    (by norm_num) (by norm_num [sampleParams])).1

/-- C5: the detail-page computation is the inverse of the list-page
numbering: for the item produced on list page p, column c, row i, the
computed page number is p + 1, the computed position in page equals the
todoNum label printed on that row (and equals c * itemsPerColumn + i + 1),
the floor-based page number agrees with the ceiling formula of the
specification, every detail page of the item back-links exactly once to
bookmark page_pageNum, and item 3 with itemsPerColumn 2, columns 1 maps
to page 2. -/
theorem claim_C5 (P : Params) (p c i : ℕ)
    (hc : c < P.columns) (hi : i < P.itemsPerCol) :
    pageNumOf P.itemsPerCol P.columns (globalIdx P.itemsPerCol P.columns p c i) = p + 1
    ∧ posInPage P.itemsPerCol P.columns (globalIdx P.itemsPerCol P.columns p c i)
        = todoNum P.itemsPerCol P.columns (globalIdx P.itemsPerCol P.columns p c i)
    ∧ posInPage P.itemsPerCol P.columns (globalIdx P.itemsPerCol P.columns p c i)
        = c * P.itemsPerCol + i + 1
    ∧ pageNumOf P.itemsPerCol P.columns (globalIdx P.itemsPerCol P.columns p c i)
        = (globalIdx P.itemsPerCol P.columns p c i + P.itemsPerCol * P.columns - 1)
            / (P.itemsPerCol * P.columns)
    ∧ (∀ k, ((detailBody P (globalIdx P.itemsPerCol P.columns p c i) k).countP
          fun e => decide (e = Event.link (Dest.page (p + 1)))) = 1)
    ∧ pageNumOf 2 1 3 = 2 := by
  refine ⟨pageNumOf_globalIdx _ _ _ _ _ hc hi, rfl,
    posInPage_globalIdx _ _ _ _ _ hc hi, ?_, ?_, by norm_num [pageNumOf]⟩
  · exact pageNumOf_eq_ceil _ _ _ (by unfold globalIdx; omega)
      (Nat.one_le_iff_ne_zero.mpr (Nat.mul_ne_zero (by omega) (by omega)))
  · intro k
    unfold detailBody
    rw [pageNumOf_globalIdx _ _ _ _ _ hc hi]
    split_ifs <;>
      simp [List.countP_append, List.countP_cons, List.countP_nil]

/-- Witness for C5 at the sample configuration: list page index 1,
column 0, row 0 produces global item 3, whose detail pages compute page
number 2. -/
theorem claim_C5_witness :
    pageNumOf sampleParams.itemsPerCol sampleParams.columns
        (globalIdx sampleParams.itemsPerCol sampleParams.columns 1 0 0) = 1 + 1 :=
  (claim_C5 sampleParams 1 0 0 (by norm_num [sampleParams])
    (by norm_num [sampleParams])).1

/-! Reuse of the dot-grid form block. -/

lemma countP_flat_const {α : Type _} (pr : Event → Bool) (f : α → List Event)
    (l : List α) (c : ℕ) (h : ∀ x ∈ l, (f x).countP pr = c) :
    ((l.flatMap f).countP pr) = l.length * c := by
  induction l with
  | nil => simp
  | cons x xs ih =>
      rw [List.flatMap_cons, List.countP_append, h x (List.mem_cons_self x xs),
        ih fun y hy => h y (List.mem_cons_of_mem x hy)]
      simp [Nat.succ_mul]
      omega

lemma countP_beginForm_listBody (P : Params) (p : ℕ) :
    ((listBody P p).countP fun e => decide (e = Event.beginForm "dotPattern")) = 0 := by
  rw [List.countP_eq_zero]
  intro a ha
  simp only [listBody, listRow, List.mem_cons, List.mem_flatMap, List.mem_range,
    List.not_mem_nil, or_false] at ha
  rcases ha with rfl | rfl | rfl | ⟨c, _, i, _, rfl | rfl | rfl | rfl⟩ <;> simp

lemma countP_doForm_listBody (P : Params) (p : ℕ) :
    ((listBody P p).countP fun e => decide (e = Event.doForm "dotPattern")) = 0 := by
  rw [List.countP_eq_zero]
  intro a ha
  simp only [listBody, listRow, List.mem_cons, List.mem_flatMap, List.mem_range,
    List.not_mem_nil, or_false] at ha
  rcases ha with rfl | rfl | rfl | ⟨c, _, i, _, rfl | rfl | rfl | rfl⟩ <;> simp

lemma countP_beginForm_indexBody (L : ℕ) :
    ((indexBody L).countP fun e => decide (e = Event.beginForm "dotPattern")) = 0 := by
  rw [List.countP_eq_zero]
  intro a ha
  simp only [indexBody, entryEvents, List.mem_cons, List.mem_flatMap,
    List.not_mem_nil, or_false] at ha
  rcases ha with rfl | rfl | ⟨n, _, rfl | rfl | rfl | rfl⟩ <;> simp

lemma countP_doForm_indexBody (L : ℕ) :
    ((indexBody L).countP fun e => decide (e = Event.doForm "dotPattern")) = 0 := by
  rw [List.countP_eq_zero]
  intro a ha
  simp only [indexBody, entryEvents, List.mem_cons, List.mem_flatMap,
    List.not_mem_nil, or_false] at ha
  rcases ha with rfl | rfl | ⟨n, _, rfl | rfl | rfl | rfl⟩ <;> simp

lemma countP_doForm_detailBody (P : Params) (idx k : ℕ) :
    ((detailBody P idx k).countP fun e => decide (e = Event.doForm "dotPattern")) = 1 := by
  unfold detailBody
  split_ifs <;>
    simp [List.countP_append, List.countP_cons, List.countP_nil]

lemma countP_beginForm_detailBody (P : Params) (idx k : ℕ) :
    ((detailBody P idx k).countP fun e => decide (e = Event.beginForm "dotPattern")) = 0 := by
  unfold detailBody
  split_ifs <;>
    simp [List.countP_append, List.countP_cons, List.countP_nil]

lemma countP_beginForm_formEvents (P : Params) :
    ((formEvents P).countP fun e => decide (e = Event.beginForm "dotPattern")) = 1 := by
  unfold formEvents
  rw [List.countP_append, List.countP_cons, List.countP_map]
  simp [Function.comp_def, List.countP_nil]

lemma countP_doForm_formEvents (P : Params) :
    ((formEvents P).countP fun e => decide (e = Event.doForm "dotPattern")) = 0 := by
  unfold formEvents
  rw [List.countP_append, List.countP_cons, List.countP_map]
  simp [Function.comp_def, List.countP_nil]

/-- C7: the dot-grid reusable block is defined exactly once per run
(exactly one beginForm event), every one of the N * detailPagesPerItem
detail pages places it by name exactly once (one doForm event per detail
page, N * detailPagesPerItem in total), and no detail page re-enumerates
the dot set (no circle drawing on any detail page). -/
theorem claim_C7 (P : Params) :
    ((fullBody P).countP fun e => decide (e = Event.beginForm "dotPattern")) = 1
    ∧ ((fullBody P).countP fun e => decide (e = Event.doForm "dotPattern"))
        = P.pagesOfTodos * P.itemsPerCol * P.columns * P.detailPagesPerTodo
    ∧ (∀ idx k,
        ((detailBody P idx k).countP fun e => decide (e = Event.doForm "dotPattern")) = 1)
    ∧ (∀ idx k x y, Event.drawCircle x y ∉ detailBody P idx k) := by
  have htitle : ∀ pr : Event → Bool, pr (Event.drawText (TextLabel.misc "title")) = false →
      pr Event.showPage = false →
      ((if P.titlePageEnabled then titleBody ++ [Event.showPage] else []).countP pr)
        = 0 := by
    intro pr hpr hsp
    split_ifs <;>
      simp_all [titleBody, List.countP_cons, List.countP_nil, List.countP_append]
  refine ⟨?_, ?_, countP_doForm_detailBody P, ?_⟩
  · unfold fullBody
    simp only [List.countP_append]
    rw [countP_beginForm_formEvents, countP_beginForm_indexBody]
    rw [countP_flat_const _ _ _ 0 fun p _ => by
      rw [List.countP_append, countP_beginForm_listBody]
      simp]
    rw [countP_flat_const _ _ _ 0 fun ik _ => by
      rw [List.countP_append, countP_beginForm_detailBody]
      simp]
    rw [htitle _ (by simp) (by simp)]
    simp [List.countP_cons, List.countP_nil]
  · unfold fullBody
    simp only [List.countP_append]
    rw [countP_doForm_formEvents, countP_doForm_indexBody]
    rw [countP_flat_const _ _ _ 0 fun p _ => by
      rw [List.countP_append, countP_doForm_listBody]
      simp]
    rw [countP_flat_const _ _ _ 1 fun ik _ => by
      rw [List.countP_append, countP_doForm_detailBody]
      simp]
    rw [htitle _ (by simp) (by simp)]
    rw [detailPairs_length]
    simp [totalItems]
  · intro idx k x y hmem
    unfold detailBody at hmem
    rcases List.mem_append.mp hmem with hAB | hC
    · rcases List.mem_append.mp hAB with hA | hB
      · simp at hA
      · by_cases h1 : 1 < k <;> simp [h1] at hB
    · by_cases h2 : k < P.detailPagesPerTodo <;> simp [h2] at hC

/-! Double registration of the page bookmarks. -/

lemma countP_entry_bookmark (m n : ℕ) :
    ((entryEvents m).countP fun e => decide (e = Event.bookmark (Dest.page n)))
      = if m = n then 1 else 0 := by
  by_cases h : m = n <;>
    simp [entryEvents, List.countP_cons, List.countP_nil, h]

lemma countP_indexBody_bookmark (L n : ℕ) (hL : 1 ≤ L) :
    ((indexBody L).countP fun e => decide (e = Event.bookmark (Dest.page n)))
      = if 1 ≤ n ∧ n ≤ L then 1 else 0 := by
  unfold indexBody
  rw [indexEntries_eq L hL]
  simp only [List.countP_cons]
  rw [List.countP_flatMap]
  simp only [Function.comp_def, countP_entry_bookmark]
  rw [List.map_map]
  have h1 : (List.map ((fun m => if m = n then 1 else 0) ∘ fun a => a + 1) (List.range L))
      = (List.range L).map fun a => if a + 1 = n then 1 else 0 := by
    apply List.map_congr_left
    intro a _
    rfl
  rw [h1, sum_indicator_range]
  simp

lemma countP_bookmarkPage_listBody (P : Params) (p n : ℕ) :
    ((listBody P p).countP fun e => decide (e = Event.bookmark (Dest.page n)))
      = if p + 1 = n then 1 else 0 := by
  unfold listBody
  simp only [List.countP_cons]
  have hrows : (((List.range P.columns).flatMap fun c =>
      (List.range P.itemsPerCol).flatMap (listRow P p c)).countP
        fun e => decide (e = Event.bookmark (Dest.page n))) = 0 := by
    rw [List.countP_eq_zero]
    intro a ha
    simp only [List.mem_flatMap, List.mem_range, listRow, List.mem_cons,
      List.not_mem_nil, or_false] at ha
    rcases ha with ⟨c, _, i, _, rfl | rfl | rfl | rfl⟩ <;> simp
  rw [hrows]
  by_cases h : p + 1 = n <;> simp [h]

lemma countP_bookmarkPage_detailBody (P : Params) (idx k n : ℕ) :
    ((detailBody P idx k).countP fun e => decide (e = Event.bookmark (Dest.page n)))
      = 0 := by
  unfold detailBody
  split_ifs <;>
    simp [List.countP_append, List.countP_cons, List.countP_nil]

lemma countP_bookmarkPage_formEvents (P : Params) (n : ℕ) :
    ((formEvents P).countP fun e => decide (e = Event.bookmark (Dest.page n)))
      = 0 := by
  unfold formEvents
  rw [List.countP_append, List.countP_cons, List.countP_map]
  simp [Function.comp_def, List.countP_nil]

lemma countP_fullBody_bookmarkPage (P : Params) (n : ℕ)
    (h1 : 1 ≤ n) (h2 : n ≤ P.pagesOfTodos) :
    ((fullBody P).countP fun e => decide (e = Event.bookmark (Dest.page n))) = 2 := by
  have hL : 1 ≤ P.pagesOfTodos := le_trans h1 h2
  unfold fullBody
  simp only [List.countP_append]
  have htitle : ((if P.titlePageEnabled then titleBody ++ [Event.showPage] else []).countP
      fun e => decide (e = Event.bookmark (Dest.page n))) = 0 := by
    split_ifs <;> simp [titleBody, List.countP_cons, List.countP_nil,
      List.countP_append]
  have hlists : (((List.range P.pagesOfTodos).flatMap fun p =>
      listBody P p ++ [Event.showPage]).countP
        fun e => decide (e = Event.bookmark (Dest.page n))) = 1 := by
    rw [List.countP_flatMap]
    have hmap : (List.map ((List.countP fun e =>
          decide (e = Event.bookmark (Dest.page n))) ∘ fun p =>
            listBody P p ++ [Event.showPage]) (List.range P.pagesOfTodos))
        = (List.range P.pagesOfTodos).map fun p => if p + 1 = n then 1 else 0 := by
      apply List.map_congr_left
      intro p _
      simp only [Function.comp_apply, List.countP_append,
        countP_bookmarkPage_listBody]
      simp
    rw [hmap, sum_indicator_range_w]
    simp [h1, h2]
  have hdetails : (((detailPairs P).flatMap fun ik =>
      detailBody P ik.1 ik.2 ++ [Event.showPage]).countP
        fun e => decide (e = Event.bookmark (Dest.page n))) = 0 := by
    rw [countP_flat_const _ _ _ 0 fun ik _ => by
      rw [List.countP_append, countP_bookmarkPage_detailBody]
      simp]
    simp
  rw [htitle, hlists, hdetails, countP_bookmarkPage_formEvents,
    countP_indexBody_bookmark _ _ hL]
  simp [h1, h2]

/-- C10: during index construction the generator registers bookmark
page_n on the index page itself, immediately before the clickable region
of the entry for n; the same name is registered once more when list page
n is built, so each page_n is registered exactly twice per run, first on
the index page and then on list page n. -/
theorem claim_C10 (P : Params) (n : ℕ) (h1 : 1 ≤ n) (h2 : n ≤ P.pagesOfTodos) :
    (∃ c1 c2, indexBody P.pagesOfTodos
        = c1 ++ Event.bookmark (Dest.page n) :: Event.link (Dest.page n) :: c2)
    ∧ ((indexBody P.pagesOfTodos).countP
        fun e => decide (e = Event.bookmark (Dest.page n))) = 1
    ∧ ((listBody P (n - 1)).countP
        fun e => decide (e = Event.bookmark (Dest.page n))) = 1
    ∧ ((fullBody P).countP fun e => decide (e = Event.bookmark (Dest.page n))) = 2 := by
  have hL : 1 ≤ P.pagesOfTodos := le_trans h1 h2
  refine ⟨?_, ?_, ?_, ?_⟩
  · have hmem : n ∈ (List.range P.pagesOfTodos).map fun m => m + 1 := by
      simp only [List.mem_map, List.mem_range]
      exact ⟨n - 1, by omega, by omega⟩
    obtain ⟨s, t, hst⟩ := List.append_of_mem hmem
    refine ⟨Event.bookmark Dest.index :: Event.drawText (TextLabel.misc "Index")
      :: (s.flatMap entryEvents
        ++ [Event.drawText (TextLabel.pLabel n), Event.drawLine]),
      t.flatMap entryEvents, ?_⟩
    unfold indexBody
    rw [indexEntries_eq _ hL, hst]
    simp [entryEvents, List.flatMap_append]
  · rw [countP_indexBody_bookmark _ _ hL]
    simp [h1, h2]
  · rw [countP_bookmarkPage_listBody]
    simp only [if_pos (by omega : n - 1 + 1 = n)]
  · exact countP_fullBody_bookmarkPage P n h1 h2

/-- Witness for C10 at the sample configuration: bookmark page_1 is
registered exactly twice over the whole run. -/
theorem claim_C10_witness :
    ((fullBody sampleParams).countP
      fun e => decide (e = Event.bookmark (Dest.page 1))) = 2 :=
  (claim_C10 sampleParams 1 (by norm_num) (by norm_num [sampleParams])).2.2.2

/-! Resolution of every link target: each destination used by a
clickable region is registered by a bookmark call in the same run. -/

lemma mem_detailPairs (P : Params) (i k : ℕ) :
    (i, k) ∈ detailPairs P
      ↔ 1 ≤ i ∧ i ≤ totalItems P ∧ 1 ≤ k ∧ k ≤ P.detailPagesPerTodo := by
  simp only [detailPairs, List.mem_flatMap, List.mem_map, List.mem_range, Prod.mk.injEq]
  constructor
  · rintro ⟨j, hj, t, ht, h1, h2⟩
    omega
  · rintro ⟨h1, h2, h3, h4⟩
    exact ⟨i - 1, by omega, k - 1, by omega, by omega, by omega⟩

lemma bookmark_index_mem (P : Params) : Event.bookmark Dest.index ∈ fullBody P := by
  simp [fullBody, indexBody, List.mem_append]

lemma bookmark_page_mem (P : Params) (n : ℕ) (h1 : 1 ≤ n) (h2 : n ≤ P.pagesOfTodos) :
    Event.bookmark (Dest.page n) ∈ fullBody P := by
  have h := countP_fullBody_bookmarkPage P n h1 h2
  have hpos : 0 < (fullBody P).countP
      fun e => decide (e = Event.bookmark (Dest.page n)) := by omega
  obtain ⟨a, ha, hpa⟩ := List.countP_pos.mp hpos
  have heq : a = Event.bookmark (Dest.page n) := by simpa using hpa
  exact heq ▸ ha

lemma bookmark_detail_mem (P : Params) (idx k : ℕ)
    (h1 : 1 ≤ idx) (h2 : idx ≤ totalItems P)
    (h3 : 1 ≤ k) (h4 : k ≤ P.detailPagesPerTodo) :
    Event.bookmark (Dest.detail idx k) ∈ fullBody P := by
  have hpair : (idx, k) ∈ detailPairs P :=
    (mem_detailPairs P idx k).mpr ⟨h1, h2, h3, h4⟩
  unfold fullBody
  refine List.mem_append.mpr (Or.inr ?_)
  refine List.mem_flatMap.mpr ⟨(idx, k), hpair, ?_⟩
  simp [detailBody]

lemma indexEntries_bounds (L n : ℕ) (h : n ∈ indexEntries L) : 1 ≤ n ∧ n ≤ L := by
  unfold indexEntries at h
  simp only [List.mem_flatMap, List.mem_range] at h
  obtain ⟨col, _, hmem⟩ := h
  rw [indexColEntries_eq] at hmem
  simp only [List.mem_map, List.mem_range] at hmem
  obtain ⟨i, hi, rfl⟩ := hmem
  omega

lemma link_in_indexBody (L : ℕ) (d : Dest) (h : Event.link d ∈ indexBody L) :
    ∃ n, d = Dest.page n ∧ n ∈ indexEntries L := by
  simp only [indexBody, List.mem_cons, List.mem_flatMap, entryEvents] at h
  rcases h with h | h | ⟨n, hn, h⟩
  · simp at h
  · simp at h
  · simp only [List.mem_cons, List.not_mem_nil, or_false] at h
    rcases h with h | h | h | h
    · simp at h
    · simp at h
    · simp at h
    · exact ⟨n, by simpa using h, hn⟩

lemma link_in_listBody (P : Params) (p : ℕ) (d : Dest)
    (h : Event.link d ∈ listBody P p) :
    d = Dest.index
    ∨ ∃ c i, c < P.columns ∧ i < P.itemsPerCol
        ∧ d = Dest.detail (globalIdx P.itemsPerCol P.columns p c i) 1 := by
  simp only [listBody, List.mem_cons, List.mem_flatMap, List.mem_range, listRow,
    List.not_mem_nil, or_false] at h
  rcases h with h | h | h | ⟨c, hc, i, hi, h⟩
  · simp at h
  · simp at h
  · left
    simpa using h
  · rcases h with h | h | h | h
    · simp at h
    · simp at h
    · simp at h
    · exact Or.inr ⟨c, i, hc, hi, by simpa using h⟩

lemma link_in_detailBody (P : Params) (idx k : ℕ) (d : Dest)
    (h : Event.link d ∈ detailBody P idx k) :
    d = Dest.index
    ∨ d = Dest.page (pageNumOf P.itemsPerCol P.columns idx)
    ∨ (1 < k ∧ d = Dest.detail idx (k - 1))
    ∨ (k < P.detailPagesPerTodo ∧ d = Dest.detail idx (k + 1)) := by
  unfold detailBody at h
  rcases List.mem_append.mp h with hAB | hC
  · rcases List.mem_append.mp hAB with hA | hB
    · simp only [List.mem_cons, List.not_mem_nil, or_false] at hA
      rcases hA with h | h | h | h | h | h | h
      · simp at h
      · simp at h
      · simp at h
      · simp at h
      · simp at h
      · exact Or.inr (Or.inl (by simpa using h))
      · exact Or.inl (by simpa using h)
    · by_cases h1 : 1 < k
      · simp only [if_pos h1, List.mem_cons, List.not_mem_nil, or_false] at hB
        rcases hB with h | h
        · simp at h
        · exact Or.inr (Or.inr (Or.inl ⟨h1, by simpa using h⟩))
      · simp [h1] at hB
  · by_cases h2 : k < P.detailPagesPerTodo
    · simp only [if_pos h2, List.mem_cons, List.not_mem_nil, or_false] at hC
      rcases hC with h | h
      · simp at h
      · exact Or.inr (Or.inr (Or.inr ⟨h2, by simpa using h⟩))
    · simp [h2] at hC

lemma globalIdx_bounds (L ipc cols p c i : ℕ)
    (hp : p < L) (hc : c < cols) (hi : i < ipc) :
    1 ≤ globalIdx ipc cols p c i ∧ globalIdx ipc cols p c i ≤ L * ipc * cols := by
  have hr := globalIdx_row_lt ipc cols c i hc hi
  have hp1 : p * (ipc * cols) ≤ (L - 1) * (ipc * cols) :=
    Nat.mul_le_mul_right _ (by omega)
  have hLm : L * (ipc * cols) = (L - 1) * (ipc * cols) + ipc * cols := by
    have hL1 : L = (L - 1) + 1 := by omega
    calc L * (ipc * cols) = ((L - 1) + 1) * (ipc * cols) := by rw [← hL1]
      _ = (L - 1) * (ipc * cols) + ipc * cols := by ring
  have hassoc : p * ipc * cols = p * (ipc * cols) := by ring
  have hassoc2 : L * ipc * cols = L * (ipc * cols) := by ring
  unfold globalIdx
  omega

/-- C8: on valid parameters (at least one detail page per item), every
destination used by a clickable region somewhere in the run is also
registered by a bookmark call in the same run, and the save event is the
final event of the trace, so finalize-time resolution leaves no
unresolved target; in particular the forward links from list pages to
first detail pages and the within-chain links all resolve. -/
theorem claim_C8 (P : Params) (hdpp : 1 ≤ P.detailPagesPerTodo) :
    (fullTrace P).getLast? = some Event.save
    ∧ ∀ d, Event.link d ∈ fullBody P → Event.bookmark d ∈ fullBody P := by
  constructor
  · unfold fullTrace
    exact List.getLast?_concat _
  · intro d hd
    unfold fullBody at hd
    rcases List.mem_append.mp hd with hd | hDF
    rcases List.mem_append.mp hd with hd | hLF
    rcases List.mem_append.mp hd with hd | hI
    rcases List.mem_append.mp hd with hT | hF
    · revert hT
      split_ifs <;> simp [titleBody]
    · simp [formEvents] at hF
    · rcases List.mem_append.mp hI with hI | hsp
      · obtain ⟨n, rfl, hn⟩ := link_in_indexBody _ _ hI
        obtain ⟨hn1, hn2⟩ := indexEntries_bounds _ _ hn
        exact bookmark_page_mem P n hn1 hn2
      · simp at hsp
    · obtain ⟨p, hp, hmem⟩ := List.mem_flatMap.mp hLF
      rw [List.mem_range] at hp
      rcases List.mem_append.mp hmem with hmem | hsp
      · rcases link_in_listBody P p d hmem with rfl | ⟨c, i, hc, hi, rfl⟩
        · exact bookmark_index_mem P
        · obtain ⟨hg1, hg2⟩ := globalIdx_bounds P.pagesOfTodos _ _ p c i hp hc hi
          exact bookmark_detail_mem P _ 1 hg1 hg2 le_rfl hdpp
      · simp at hsp
    · obtain ⟨ik, hik, hmem⟩ := List.mem_flatMap.mp hDF
      obtain ⟨hi1, hi2, hk1, hk2⟩ := (mem_detailPairs P ik.1 ik.2).mp hik
      rcases List.mem_append.mp hmem with hmem | hsp
      · rcases link_in_detailBody P ik.1 ik.2 d hmem with rfl | rfl | ⟨hklt, rfl⟩ | ⟨hklt, rfl⟩
        · exact bookmark_index_mem P
        · have htot : totalItems P = P.pagesOfTodos * (P.itemsPerCol * P.columns) := by
            unfold totalItems
            ring
          have hm : 0 < P.itemsPerCol * P.columns := by
            by_contra hz
            have hz0 : P.itemsPerCol * P.columns = 0 := by omega
            have htz : totalItems P = 0 := by
              rw [htot, hz0, Nat.mul_zero]
            omega
          have hpn1 : 1 ≤ pageNumOf P.itemsPerCol P.columns ik.1 := by
            unfold pageNumOf
            exact Nat.le_add_left 1 _
          have hpn2 : pageNumOf P.itemsPerCol P.columns ik.1 ≤ P.pagesOfTodos := by
            unfold pageNumOf
            have hdiv : (ik.1 - 1) / (P.itemsPerCol * P.columns) < P.pagesOfTodos := by
              rw [Nat.div_lt_iff_lt_mul hm]
              omega
            exact hdiv
          exact bookmark_page_mem P _ hpn1 hpn2
        · exact bookmark_detail_mem P _ _ hi1 hi2 (by omega) (by omega)
        · exact bookmark_detail_mem P _ _ hi1 hi2 (by omega) (by omega)
      · simp at hsp

/-- Witness for C8 at the sample configuration: the index destination,
used as a link target by the list and detail pages, is registered. -/
theorem claim_C8_witness :
    Event.bookmark Dest.index ∈ fullBody sampleParams :=
  (claim_C8 sampleParams (by norm_num [sampleParams])).2 Dest.index
    (by
      unfold fullBody
      refine List.mem_append.mpr (Or.inl (List.mem_append.mpr (Or.inr ?_)))
      refine List.mem_flatMap.mpr ⟨0, by simp [sampleParams], ?_⟩
      exact List.mem_append.mpr (Or.inl (by simp [listBody])))

/-! Absence of usable-area validation. -/

/-- Configuration with zero usable width: marginLeft + marginRight is
larger than the page width. -/
def badParams : Params :=
  { pageWidth := 10, pageHeight := 50, marginLeft := 10, marginRight := 10,
    marginTop := 2, marginBottom := 1, dotSpacing := 7,
    itemsPerCol := 1, columns := 1, pagesOfTodos := 1, detailPagesPerTodo := 1,
    titlePageEnabled := false }

/-- Counterexample to C9: on a configuration whose margins exceed the
page width (usable area not positive), the generator does not reject
and does not stop before drawing: the run still performs drawing calls
and emits its full page sequence of 3 pages. -/
theorem claim_C9_counterexample :
    badParams.pageWidth ≤ badParams.marginLeft + badParams.marginRight
    ∧ Event.drawText (TextLabel.misc "Index") ∈ fullBody badParams
    ∧ (pageMarks badParams).length = 3 := by
  refine ⟨by norm_num [badParams], ?_, ?_⟩
  · unfold fullBody
    refine List.mem_append.mpr (Or.inl (List.mem_append.mpr (Or.inl
      (List.mem_append.mpr (Or.inr ?_)))))
    exact List.mem_append.mpr (Or.inl (by simp [indexBody]))
  · rw [pageMarks_length]
    norm_num [badParams]

/-- C9 amended: the generator performs no usable-area validation and
never rejects: every configuration, also one with zero or negative
usable area, still produces the full page sequence; the only effect of
marginLeft exceeding width - marginRight is that the dot grid of the
tile pattern is empty, because the x stepping loop body never runs. -/
theorem claim_C9_amended (P : Params) :
    ((pageMarks P).length
      = (if P.titlePageEnabled then 1 else 0) + 1 + P.pagesOfTodos
        + P.pagesOfTodos * P.itemsPerCol * P.columns * P.detailPagesPerTodo)
    ∧ (P.pageWidth - P.marginRight < P.marginLeft → dotList P = []) := by
  refine ⟨pageMarks_length P, fun h => ?_⟩
  unfold dotList
  rw [stepRange_eq_nil _ _ _ h]
  rfl

/-- Witness for the amended C9 at the invalid configuration: the dot
grid is empty while the run still emits its pages. -/
theorem claim_C9_amended_witness : dotList badParams = [] :=
  (claim_C9_amended badParams).2 (by norm_num [badParams])

end PdfGen
